import Mathlib

/-
Verification of the Khmer NER inference pipeline
(khmer-ai-writer/ml-khmer-ner/app/main.py).

Python strings are modelled as `List Char`, floating point scores as `ℚ`
(real-valued arithmetic semantics), dictionaries as association lookups.
External collaborators (the `unicodedata.normalize("NFC", ·)` function and
the torch numeric kernels) are taken as parameters of the definitions that
call them, exactly at the interface the source uses.
-/

set_option maxHeartbeats 1600000

/-- Python strings are modelled as lists of characters. -/
abbrev Str := List Char

/-- Constant `MAX_WORD_LEN = 24` from `app/main.py`. -/
def MAX_WORD_LEN : Nat := 24

/-- Sentinel string `PAD = "<PAD>"`. -/
def PAD : Str := "<PAD>".toList

/-- Sentinel string `UNK = "<UNK>"`. -/
def UNK : Str := "<UNK>".toList

/-- Module-level `pad_idx = 0`. -/
def pad_idx : Nat := 0

/-- Module-level `unk_idx = 1`. -/
def unk_idx : Nat := 1

/-- Embeds `normalize_text`: NFC normalization (the external `unicodedata`
collaborator is the parameter `nfc`) followed by removing every zero-width
space and every byte-order mark, as the two `.replace` calls do. -/
def normalize_text (nfc : Str → Str) (s : Str) : Str :=
  ((nfc s).filter (fun c => c != '\u200b')).filter (fun c => c != '\ufeff')

/-- Helper for `ws_tokens_with_spans`: walks the text with the current
position `i` and an optional in-progress token `(startIdx, reversed chars)`,
emitting `(token, start, end)` triples for maximal non-whitespace runs,
as `re.finditer(r"\S+", text)` does. -/
def wsAux : Str → Nat → Option (Nat × Str) → List (Str × Nat × Nat)
  | [], _, none => []
  | [], i, some (s, acc) => [(acc.reverse, s, i)]
  | c :: cs, i, none =>
    if c.isWhitespace then wsAux cs (i + 1) none
    else wsAux cs (i + 1) (some (i, [c]))
  | c :: cs, i, some (s, acc) =>
    if c.isWhitespace then (acc.reverse, s, i) :: wsAux cs (i + 1) none
    else wsAux cs (i + 1) (some (s, c :: acc))

/-- Embeds `ws_tokens_with_spans`: tokens are maximal runs of
non-whitespace characters, each with its half-open character span.
The Python function returns the tokens and the spans as two parallel
lists; here they are returned zipped together. -/
def ws_tokens_with_spans (text : Str) : List (Str × Nat × Nat) :=
  wsAux text 0 none

/-- Embeds the character-collection part of `build_char_vocab`: the set of
distinct non-blank characters of the normalized words (`ch.strip()` truthy
iff `ch` is not whitespace), in sorted order (`sorted(chars)`). -/
def build_chars (nfc : Str → Str) (words : List Str) : List Char :=
  List.insertionSort (· ≤ ·)
    ((words.map (fun w => (normalize_text nfc w).filter (fun c => !c.isWhitespace))).flatten.dedup)

/-- Embeds `idx2char = [PAD, UNK] + sorted(chars)` from `build_char_vocab`. -/
def idx2char (nfc : Str → Str) (words : List Str) : List Str :=
  PAD :: UNK :: (build_chars nfc words).map (fun c => [c])

/-- First-position lookup, modelling lookup in the dict
`{c: i for i, c in enumerate(idx2char)}` (keys are distinct). -/
def posOf : List Str → Nat → Str → Option Nat
  | [], _, _ => none
  | a :: as, i, s => if s = a then some i else posOf as (i + 1) s

/-- Embeds `build_char_vocab` as the resulting dict, viewed as a lookup
from key strings to ids. -/
def build_char_vocab (nfc : Str → Str) (words : List Str) (s : Str) : Option Nat :=
  posOf (idx2char nfc words) 0 s

/-- Embeds `encode_word`: normalize, map the first `MAX_WORD_LEN`
characters through the vocabulary (`vocab.get(ch, vocab[UNK])`), right-pad
with the PAD id up to `MAX_WORD_LEN`. -/
def encode_word (nfc : Str → Str) (words : List Str) (word : Str) : List Nat :=
  let w := normalize_text nfc word
  let ids := (w.take MAX_WORD_LEN).map (fun ch => (build_char_vocab nfc words [ch]).getD unk_idx)
  ids ++ List.replicate (MAX_WORD_LEN - ids.length) pad_idx

/-- Embeds `true_char_len`: `min(len(normalize_text(word)), MAX_WORD_LEN)`. -/
def true_char_len (nfc : Str → Str) (word : Str) : Nat :=
  min (normalize_text nfc word).length MAX_WORD_LEN

/-- Embeds `lengths_safe = torch.clamp(lengths, min=1)` from
`NerModel.forward`, per word: the length actually handed to the character
encoder. -/
def lengths_safe (nfc : Str → Str) (word : Str) : Nat :=
  max (true_char_len nfc word) 1

/-- Embeds the response item `EntityOut` (the Python field `end` is called
`stop` here because `end` is a Lean keyword). -/
structure EntityOut where
  text : Str
  label : Str
  score : ℚ
  start : Nat
  stop : Nat
  deriving DecidableEq

/-- The `current` accumulator dict of `decode_entities`. -/
structure Cur where
  text : Str
  label : Str
  scores : List ℚ
  start : Nat
  stop : Nat
  deriving DecidableEq

/-- One step of the `zip(tokens, spans, labels, scores)` iteration. -/
structure Row where
  token : Str
  start : Nat
  stop : Nat
  label : Str
  score : ℚ
  deriving DecidableEq

/-- The entity built by `flush()`: mean score is
`sum(scores) / max(len(scores), 1)`. -/
def mkEnt (c : Cur) : EntityOut :=
  ⟨c.text, c.label, c.scores.sum / (max c.scores.length 1 : ℚ), c.start, c.stop⟩

/-- Effect of `flush()` on the emitted list: a no-op when `current is None`. -/
def flushList : Option Cur → List EntityOut
  | none => []
  | some c => [mkEnt c]

/-- Splitting at the first dash: `label.split("-", 1)` when `"-" in label`,
`none` when the label has no dash. -/
def splitDash : Str → Option (Str × Str)
  | [] => none
  | c :: cs =>
    if c = '-' then some ([], cs)
    else
      match splitDash cs with
      | none => none
      | some (a, b) => some (c :: a, b)

/-- Embeds
`prefix, tag = (label.split("-", 1) + [""])[:2] if "-" in label else ("B", label)`. -/
def labelParts (label : Str) : Str × Str :=
  match splitDash label with
  | some (p, t) => (p, t)
  | none => ("B".toList, label)

/-- The fresh `current` dict built when a new span is begun. -/
def newCur (r : Row) (tag : Str) : Cur :=
  ⟨r.token, tag, [r.score], r.start, r.stop⟩

/-- The extension of `current` by one more token:
text joined with a single space, score appended, end offset moved. -/
def extendCur (c : Cur) (r : Row) : Cur :=
  ⟨c.text ++ ' ' :: r.token, c.label, c.scores ++ [r.score], c.start, r.stop⟩

/-- The loop body of `decode_entities`, processing the zipped rows left to
right with the optional `current` accumulator, and flushing at the end. -/
def decodeLoop : Option Cur → List Row → List EntityOut
  | cur, [] => flushList cur
  | cur, r :: rs =>
    if r.label = "O".toList then
      flushList cur ++ decodeLoop none rs
    else
      let pt := labelParts r.label
      match cur with
      | none => decodeLoop (some (newCur r pt.2)) rs
      | some c =>
        if pt.1 = "B".toList ∨ c.label ≠ pt.2 then
          flushList (some c) ++ decodeLoop (some (newCur r pt.2)) rs
        else
          decodeLoop (some (extendCur c r)) rs

/-- Embeds Python `zip` over the four parallel lists, truncating at the
shortest. -/
def zip4 : List Str → List (Nat × Nat) → List Str → List ℚ → List Row
  | t :: ts, s :: ss, l :: ls, q :: qs => ⟨t, s.1, s.2, l, q⟩ :: zip4 ts ss ls qs
  | _, _, _, _ => []

/-- Embeds `decode_entities`. -/
def decode_entities (tokens : List Str) (spans : List (Nat × Nat))
    (labels : List Str) (scores : List ℚ) : List EntityOut :=
  decodeLoop none (zip4 tokens spans labels scores)

/-- C1: the BIO decode scenario. On tokens
`["ចន","ធី","រស់","នៅ","ភ្នំពេញ"]` (with the spans the whitespace tokenizer
assigns them in the sentence they form), labels
`["B-PER","I-PER","O","O","B-LOC"]` and scores `[0.9,0.8,0.6,0.7,0.95]`,
`decode_entities` yields exactly the two entities
`{text "ចន ធី", label "PER", score 0.85, start of token 0, end of token 1}`
and `{text "ភ្នំពេញ", label "LOC", score 0.95, start/end of token 4}`. -/
theorem claim1_bio_decode_scenario :
    ws_tokens_with_spans ("ចន ធី រស់ នៅ ភ្នំពេញ".toList) =
      [("ចន".toList, 0, 2), ("ធី".toList, 3, 5), ("រស់".toList, 6, 9),
       ("នៅ".toList, 10, 12), ("ភ្នំពេញ".toList, 13, 20)] ∧
    decode_entities
      ["ចន".toList, "ធី".toList, "រស់".toList, "នៅ".toList, "ភ្នំពេញ".toList]
      [(0, 2), (3, 5), (6, 9), (10, 12), (13, 20)]
      ["B-PER".toList, "I-PER".toList, "O".toList, "O".toList, "B-LOC".toList]
      [9/10, 8/10, 6/10, 7/10, 95/100] =
      [⟨"ចន ធី".toList, "PER".toList, 85/100, 0, 5⟩,
       ⟨"ភ្នំពេញ".toList, "LOC".toList, 95/100, 13, 20⟩] := by
  constructor
  · decide
  · norm_num +decide [decode_entities, zip4, decodeLoop, labelParts, splitDash, flushList,
      mkEnt, newCur, extendCur, EntityOut.mk.injEq]

/-- Tagged label variant from the spec's design note §9:
`{Outside, Begin(type), Inside(type)}`. -/
inductive TagVar where
  | outside
  | begin (t : Str)
  | inside (t : Str)
  deriving DecidableEq

/-- Parse a predicted label once into the tagged variant. Following the
code's actual rule: `O` is Outside; a dashless label is Begin(label);
a dashed label is Begin(tag) when the piece before the first dash is
exactly `B`, and otherwise — `I` or any unrecognized dashed shape —
Inside(tag). -/
def classifyLabel (label : Str) : TagVar :=
  if label = "O".toList then .outside
  else
    match splitDash label with
    | none => .begin label
    | some (p, t) => if p = "B".toList then .begin t else .inside t

/-- The entity-decoder state machine of spec §4.8 driven by the tagged
variant: Outside flushes; Begin flushes and starts a fresh span; Inside
appends when accumulating the same type and otherwise acts as Begin. -/
def specDecode : Option Cur → List Row → List EntityOut
  | cur, [] => flushList cur
  | cur, r :: rs =>
    match classifyLabel r.label, cur with
    | .outside, _ => flushList cur ++ specDecode none rs
    | .begin t, _ => flushList cur ++ specDecode (some (newCur r t)) rs
    | .inside t, none => specDecode (some (newCur r t)) rs
    | .inside t, some c =>
      if c.label = t then specDecode (some (extendCur c r)) rs
      else flushList (some c) ++ specDecode (some (newCur r t)) rs

/-- C2 counterexample: with labels `["B-T", "X-T"]` — the second label
malformed (dash present, prefix neither `B` nor `I`) — while accumulating a
span of the same type `T`, the code APPENDS the second token to the current
span (one merged entity results), instead of flushing and starting a new
span of type `T` with that token alone (which would give two entities), as
the claim states for labels lacking a recognized `B-`/`I-` prefix. -/
theorem claim2_counterexample :
    decode_entities ["a".toList, "b".toList] [(0, 1), (2, 3)]
      ["B-T".toList, "X-T".toList] [1, 1] =
      [⟨"a b".toList, "T".toList, 1, 0, 3⟩] ∧
    decode_entities ["a".toList, "b".toList] [(0, 1), (2, 3)]
      ["B-T".toList, "X-T".toList] [1, 1] ≠
      [⟨"a".toList, "T".toList, 1, 0, 1⟩, ⟨"b".toList, "T".toList, 1, 2, 3⟩] := by
  have h : decode_entities ["a".toList, "b".toList] [(0, 1), (2, 3)]
      ["B-T".toList, "X-T".toList] [1, 1] =
      [⟨"a b".toList, "T".toList, 1, 0, 3⟩] := by
    norm_num +decide [decode_entities, zip4, decodeLoop, labelParts, splitDash, flushList,
      mkEnt, newCur, extendCur, EntityOut.mk.injEq]
  refine ⟨h, ?_⟩
  rw [h]
  decide

/-- C2 (amended): the decoder behaves exactly as the tagged state machine
`specDecode` in which an `I-T` label appends when accumulating type `T` and
otherwise starts a fresh span of type `T`; a label WITHOUT a dash is treated
as `B-(label)` (fresh start); a dashed label whose prefix is not `B`
(malformed included) is treated exactly like `I-T`, i.e. it APPENDS to a
same-type span and only otherwise starts fresh. No label shape is an
error (the decoder is a total function). -/
theorem claim2_amended_decode_matches_tagged_machine :
    ∀ (rows : List Row) (cur : Option Cur), decodeLoop cur rows = specDecode cur rows := by
  intro rows
  induction rows with
  | nil => intro cur; rfl
  | cons r rs ih =>
    intro cur
    by_cases hO : r.label = ['O']
    · simp [decodeLoop, specDecode, classifyLabel, hO, ih]
    · cases hs : splitDash r.label with
      | none =>
        cases cur with
        | none =>
          simp [decodeLoop, specDecode, classifyLabel, hO, hs, labelParts, flushList, ih]
        | some c =>
          simp [decodeLoop, specDecode, classifyLabel, hO, hs, labelParts, flushList, ih]
      | some pt =>
        obtain ⟨p, t⟩ := pt
        by_cases hp : p = ['B']
        · cases cur with
          | none =>
            simp [decodeLoop, specDecode, classifyLabel, hO, hs, labelParts, hp, flushList, ih]
          | some c =>
            simp [decodeLoop, specDecode, classifyLabel, hO, hs, labelParts, hp, flushList, ih]
        · cases cur with
          | none =>
            simp [decodeLoop, specDecode, classifyLabel, hO, hs, labelParts, hp, flushList, ih]
          | some c =>
            by_cases hl : c.label = t
            · simp [decodeLoop, specDecode, classifyLabel, hO, hs, labelParts, hp, hl, flushList, ih]
            · simp [decodeLoop, specDecode, classifyLabel, hO, hs, labelParts, hp, hl, flushList, ih]

/-- C3: the length handed to the character-level recurrent encoder
(`true_char_len` clamped by `torch.clamp(·, min=1)` in `NerModel.forward`)
is `min(len(normalized word), MAX_WORD_LEN)` floored at 1: it is always at
least 1, equals 1 on tokens whose normalized length is 0, and equals
`true_char_len` whenever the normalized word is nonempty. -/
theorem claim3_true_length_floor :
    ∀ (nfc : Str → Str) (word : Str),
      1 ≤ lengths_safe nfc word ∧
      lengths_safe nfc word ≤ MAX_WORD_LEN ∧
      ((normalize_text nfc word).length = 0 → lengths_safe nfc word = 1) ∧
      (1 ≤ (normalize_text nfc word).length → lengths_safe nfc word = true_char_len nfc word) := by
  intro nfc word
  simp only [lengths_safe, true_char_len, MAX_WORD_LEN]
  omega

/-- Witness for C3 at the degenerate token `""`: its normalized length is 0
and the encoder still receives length 1. -/
theorem claim3_witness : lengths_safe (fun s => s) [] = 1 :=
  (claim3_true_length_floor (fun s => s) []).2.2.1 rfl

/-- Abstraction of `CharEncoder.forward`: the embedding table and the GRU
cell are the external torch collaborators (parameters `emb` and `cell`);
`pack_padded_sequence` followed by the GRU and taking the final hidden
state amounts to folding the cell over the embeddings of exactly the first
`len` character ids. -/
def charEncoderFinal {E H : Type} (emb : Nat → E) (cell : H → E → H)
    (h0 : H) (ids : List Nat) (len : Nat) : H :=
  ((ids.take len).map emb).foldl cell h0

/-- C9: the Char-Level Recurrent Encoder's output depends only on the first
`true_length` character ids: two encoded words agreeing on their first
`len` ids (and on `len`) produce the same final hidden state, whatever the
embedding table, recurrent cell and initial state are — padding positions
at or beyond the true length never influence the word vector. -/
theorem claim9_padding_independence {E H : Type}
    (emb : Nat → E) (cell : H → E → H) (h0 : H) (len : Nat)
    (ids1 ids2 : List Nat) (h : ids1.take len = ids2.take len) :
    charEncoderFinal emb cell h0 ids1 len = charEncoderFinal emb cell h0 ids2 len := by
  unfold charEncoderFinal
  rw [h]

/-- Witness for C9: `[1, 2, 3]` and `[1, 2, 9]` agree on their first two
ids, and the encoder output at length 2 coincides. -/
theorem claim9_witness :
    charEncoderFinal (fun n => n) (fun a b => a + b) 0 [1, 2, 3] 2 =
      charEncoderFinal (fun n => n) (fun a b => a + b) 0 [1, 2, 9] 2 :=
  claim9_padding_independence (fun n => n) (fun a b => a + b) 0 2 [1, 2, 3] [1, 2, 9] rfl

/-- The artifacts the endpoint needs at request time (`model`, `id2label`,
`char2idx` in the source; all three are loaded together by
`load_artifacts`, so their availability is modelled as one option).
`predict` abstracts the whole torch forward pass plus softmax/argmax
readout: per input token one `(predicted class index, max probability)`
pair. `id2label` is the loaded mapping from class index to label string. -/
structure NerModelIface where
  id2label : Nat → Option Str
  predict : List Str → List (Nat × ℚ)

/-- Outcome of the `/api/ner` handler: an `HTTPException` with status code
and detail, or a successful `NerOut` body. -/
inductive NerResponse where
  | httpError (status : Nat) (detail : Str)
  | ok (text : Str) (entities : List EntityOut)
  deriving DecidableEq

/-- Embeds the `ner` endpoint handler. The second component of the result
records whether the model forward pass was invoked. Mirrors the source
order: empty raw text → 400; artifacts missing → 503; normalize, tokenize;
no tokens → empty entity list without touching the model; otherwise
predict, map class indices through `id2label` with default `"O"`, decode. -/
def ner (nfc : Str → Str) (m? : Option NerModelIface) (text : Str) :
    NerResponse × Bool :=
  if text = [] then (.httpError 400 ("text is required".toList), false)
  else
    match m? with
    | none =>
      (.httpError 503 ("NER model not loaded. Ensure artifacts are in the model directory.".toList),
        false)
    | some m =>
      let t := normalize_text nfc text
      let toks := ws_tokens_with_spans t
      if toks = [] then (.ok t [], false)
      else
        let tokens := toks.map (fun x => x.1)
        let spans := toks.map (fun x => x.2)
        let preds := m.predict tokens
        let labels := preds.map (fun p => (m.id2label p.1).getD ("O".toList))
        let scores := preds.map (fun p => p.2)
        (.ok t (decode_entities tokens spans labels scores), true)

/-- C6 counterexample: on the empty string the endpoint does NOT return a
successful empty entity list — the handler's first guard
(`if not inp.text`) rejects it with a 400 client error (even with the
model loaded), contradicting the claim that `""` yields a successful
empty-entity response. -/
theorem claim6_counterexample :
    ner (fun s => s) (some ⟨fun _ => none, fun _ => []⟩) [] =
      (.httpError 400 ("text is required".toList), false) := rfl

/-- C6 (amended): for every NONEMPTY request text that tokenizes to an
empty token sequence after normalization — whitespace-only input such as
`"   "` included — the endpoint short-circuits to a successful response
with an empty entity list and never invokes the model; the empty string
itself is instead rejected with a 400 client error before any model
computation (see the counterexample). -/
theorem claim6_amended_empty_tokens :
    ∀ (nfc : Str → Str) (m : NerModelIface) (text : Str),
      text ≠ [] →
      ws_tokens_with_spans (normalize_text nfc text) = [] →
      ner nfc (some m) text = (.ok (normalize_text nfc text) [], false) := by
  intro nfc m text hne htok
  simp [ner, hne, htok]

/-- Witness for C6 (amended) at the whitespace-only input `"   "`. -/
theorem claim6_witness :
    ner (fun s => s) (some ⟨fun _ => none, fun _ => []⟩) ("   ".toList) =
      (.ok ("   ".toList) [], false) :=
  claim6_amended_empty_tokens (fun s => s) ⟨fun _ => none, fun _ => []⟩
    ("   ".toList) (by decide) (by decide)

/-- A row whose label is `O` splits the decode: the decoder flushes there,
so the output is the decode of the prefix followed by the decode of the
suffix, and nothing of the `O` row itself (token text, span, score)
reaches the output. -/
theorem decodeLoop_o_split :
    ∀ (xs : List Row) (cur : Option Cur) (ys : List Row) (r : Row),
      r.label = ['O'] →
      decodeLoop cur (xs ++ r :: ys) = decodeLoop cur xs ++ decodeLoop none ys := by
  intro xs
  induction xs with
  | nil =>
    intro cur ys r hr
    simp [decodeLoop, hr]
  | cons x xs ih =>
    intro cur ys r hr
    by_cases hO : x.label = ['O']
    · simp [decodeLoop, hO, ih _ ys r hr]
    · cases cur with
      | none => simp [decodeLoop, hO, ih _ ys r hr]
      | some c =>
        by_cases hcond : (labelParts x.label).1 = ['B'] ∨ c.label ≠ (labelParts x.label).2
        · simp [decodeLoop, hO, hcond, ih _ ys r hr]
        · simp [decodeLoop, hO, hcond, ih _ ys r hr]

/-- C10: a predicted class index absent from the loaded `id2label` mapping
is substituted by the label `"O"` (`id2label.get(str(idx), "O")`), totally
and without raising; and a token labelled `"O"` never contributes an
entity span: the decoder's output on any surrounding context splits into
the decode of what precedes and what follows, independent of that token's
text, span and score. -/
theorem claim10_oov_label :
    ∀ (id2label : Nat → Option Str) (idx : Nat), id2label idx = none →
      (id2label idx).getD ("O".toList) = "O".toList ∧
      ∀ (cur : Option Cur) (xs ys : List Row) (r : Row),
        r.label = (id2label idx).getD ("O".toList) →
        decodeLoop cur (xs ++ r :: ys) = decodeLoop cur xs ++ decodeLoop none ys := by
  intro id2label idx h
  refine ⟨by rw [h]; rfl, ?_⟩
  intro cur xs ys r hr
  rw [h] at hr
  exact decodeLoop_o_split xs cur ys r hr

/-- Witness for C10: with an everywhere-undefined label map, class index 5
becomes label `"O"`, and such a token between a `B-T` token and a `B-U`
token contributes nothing: the decode splits around it. -/
theorem claim10_witness :
    ((fun _ : Nat => (none : Option Str)) 5).getD ("O".toList) = "O".toList ∧
    decodeLoop none
        ([⟨"a".toList, 0, 1, "B-T".toList, 1⟩] ++
          ⟨"x".toList, 2, 3, "O".toList, 1⟩ :: [⟨"b".toList, 4, 5, "B-U".toList, 1⟩]) =
      decodeLoop none [⟨"a".toList, 0, 1, "B-T".toList, 1⟩] ++
        decodeLoop none [⟨"b".toList, 4, 5, "B-U".toList, 1⟩] := by
  have h := claim10_oov_label (fun _ => none) 5 rfl
  exact ⟨h.1, h.2 none [⟨"a".toList, 0, 1, "B-T".toList, 1⟩]
    [⟨"b".toList, 4, 5, "B-U".toList, 1⟩] ⟨"x".toList, 2, 3, "O".toList, 1⟩ rfl⟩

/-- Linear best-index scan over the remaining probabilities, carrying the
running `(best index, best value)` pair: a later element replaces the best
only when STRICTLY greater, so the first maximal index is kept — the
documented tie rule of `torch.argmax` (first occurrence of the maximum). -/
def argmaxGo : List ℚ → Nat → Nat × ℚ → Nat × ℚ
  | [], _, best => best
  | x :: xs, i, best =>
    if best.2 < x then argmaxGo xs (i + 1) (i, x) else argmaxGo xs (i + 1) best

/-- Embeds the per-token readout of the classification head in `ner`:
`pred_id = torch.argmax(probs, dim=-1)` together with
`pred_score = probs.max(dim=-1).values` for one token's probability
vector. -/
def pred_for (probs : List ℚ) : Nat × ℚ :=
  match probs with
  | [] => (0, 0)
  | x :: xs => argmaxGo xs 1 (0, x)

theorem argmaxGo_spec :
    ∀ (xs : List ℚ) (i bi : Nat) (bv : ℚ),
      bv ≤ (argmaxGo xs i (bi, bv)).2 ∧
      (∀ j, j < xs.length → xs.getD j 0 ≤ (argmaxGo xs i (bi, bv)).2) ∧
      (((argmaxGo xs i (bi, bv)).1 = bi ∧ (argmaxGo xs i (bi, bv)).2 = bv) ∨
        ∃ j, j < xs.length ∧ (argmaxGo xs i (bi, bv)).1 = i + j ∧
          (argmaxGo xs i (bi, bv)).2 = xs.getD j 0 ∧
          bv < (argmaxGo xs i (bi, bv)).2 ∧
          ∀ k, k < j → xs.getD k 0 < (argmaxGo xs i (bi, bv)).2) := by
  intro xs
  induction xs with
  | nil =>
    intro i bi bv
    refine ⟨le_refl _, ?_, Or.inl ⟨rfl, rfl⟩⟩
    intro j hj
    simp at hj
  | cons x xs ih =>
    intro i bi bv
    by_cases hx : bv < x
    · have heq : argmaxGo (x :: xs) i (bi, bv) = argmaxGo xs (i + 1) (i, x) := by
        simp [argmaxGo, hx]
      obtain ⟨h1, h2, h3⟩ := ih (i + 1) i x
      rw [heq]
      refine ⟨le_of_lt (lt_of_lt_of_le hx h1), ?_, ?_⟩
      · intro j hj
        cases j with
        | zero => simpa using h1
        | succ k => exact h2 k (by simpa using hj)
      · rcases h3 with ⟨ha, hv⟩ | ⟨j, hj, hi', hv', hlt, hall⟩
        · refine Or.inr ⟨0, by simp, by omega, by simp [hv], by rw [hv]; exact hx, ?_⟩
          intro k hk
          omega
        · refine Or.inr ⟨j + 1, by simpa using hj, by omega, by simpa using hv', ?_, ?_⟩
          · exact lt_trans hx hlt
          · intro k hk
            cases k with
            | zero => simpa using hlt
            | succ k' => exact hall k' (by omega)
    · have heq : argmaxGo (x :: xs) i (bi, bv) = argmaxGo xs (i + 1) (bi, bv) := by
        simp [argmaxGo, hx]
      obtain ⟨h1, h2, h3⟩ := ih (i + 1) bi bv
      rw [heq]
      refine ⟨h1, ?_, ?_⟩
      · intro j hj
        cases j with
        | zero =>
          have : x ≤ bv := not_lt.mp hx
          simpa using le_trans this h1
        | succ k => exact h2 k (by simpa using hj)
      · rcases h3 with ⟨ha, hv⟩ | ⟨j, hj, hi', hv', hlt, hall⟩
        · exact Or.inl ⟨ha, hv⟩
        · refine Or.inr ⟨j + 1, by simpa using hj, by omega, by simpa using hv', hlt, ?_⟩
          intro k hk
          cases k with
          | zero =>
            have : x ≤ bv := not_lt.mp hx
            simpa using lt_of_le_of_lt this hlt
          | succ k' => exact hall k' (by omega)

/-- C8: for every nonempty per-token probability vector, the predicted
index is in range, the predicted score is exactly that index's probability
mass, every probability is at most the predicted score (it is the
maximum), and every index before the predicted one carries a strictly
smaller probability — so on exact ties the lowest label index wins, and
the prediction is a deterministic function of the vector. -/
theorem claim8_argmax_head :
    ∀ (probs : List ℚ), probs ≠ [] →
      (pred_for probs).1 < probs.length ∧
      probs.getD (pred_for probs).1 0 = (pred_for probs).2 ∧
      (∀ j, j < probs.length → probs.getD j 0 ≤ (pred_for probs).2) ∧
      (∀ j, j < (pred_for probs).1 → probs.getD j 0 < (pred_for probs).2) := by
  intro probs hne
  cases probs with
  | nil => exact absurd rfl hne
  | cons x xs =>
    have hpf : pred_for (x :: xs) = argmaxGo xs 1 (0, x) := rfl
    obtain ⟨h1, h2, h3⟩ := argmaxGo_spec xs 1 0 x
    rw [hpf]
    rcases h3 with ⟨ha, hv⟩ | ⟨j, hj, hi', hv', hlt, hall⟩
    · refine ⟨by rw [ha]; simp, by rw [ha, hv]; simp, ?_, ?_⟩
      · intro k hk
        cases k with
        | zero => simpa using h1
        | succ k' => exact h2 k' (by simpa using hk)
      · intro k hk
        rw [ha] at hk
        omega
    · refine ⟨?_, ?_, ?_, ?_⟩
      · rw [hi']
        simp
        omega
      · rw [hi']
        have : 1 + j = j + 1 := by omega
        rw [this]
        simpa using hv'.symm
      · intro k hk
        cases k with
        | zero => simpa using h1
        | succ k' => exact h2 k' (by simpa using hk)
      · intro k hk
        rw [hi'] at hk
        cases k with
        | zero => simpa using hlt
        | succ k' => exact hall k' (by omega)

/-- Witness for C8 on the tied vector `[1/2, 1/2, 1/4]`: the prediction is
in range and its score is the maximum probability mass. -/
theorem claim8_witness :
    (pred_for [1/2, 1/2, 1/4]).1 < ([1/2, 1/2, 1/4] : List ℚ).length ∧
    ([1/2, 1/2, 1/4] : List ℚ).getD (pred_for [1/2, 1/2, 1/4]).1 0 =
      (pred_for [1/2, 1/2, 1/4]).2 := by
  have h := claim8_argmax_head [1/2, 1/2, 1/4] (by simp)
  exact ⟨h.1, h.2.1⟩

theorem posOf_le :
    ∀ (l : List Str) (i : Nat) (s : Str) (j : Nat), posOf l i s = some j → i ≤ j := by
  intro l
  induction l with
  | nil => intro i s j h; simp [posOf] at h
  | cons a as ih =>
    intro i s j h
    by_cases hs : s = a
    · simp [posOf, hs] at h
      omega
    · simp [posOf, hs] at h
      have := ih (i + 1) s j h
      omega

theorem posOf_getD_pos :
    ∀ (l : List Str) (i : Nat) (s : Str) (d : Nat),
      1 ≤ i → 1 ≤ d → 1 ≤ (posOf l i s).getD d := by
  intro l i s d hi hd
  rcases h : posOf l i s with _ | j
  · simpa using hd
  · have := posOf_le l i s j h
    simp only [Option.getD_some]
    omega

/-- A single-character key never receives the PAD id: the first vocabulary
entry is the five-character string `"<PAD>"`, so the lookup for `[ch]`
either misses entirely (default `unk_idx = 1`) or lands at position ≥ 1. -/
theorem char_lookup_pos :
    ∀ (nfc : Str → Str) (words : List Str) (ch : Char),
      1 ≤ (build_char_vocab nfc words [ch]).getD unk_idx := by
  intro nfc words ch
  have hpad : ([ch] : Str) ≠ PAD := by
    intro h
    have := congrArg List.length h
    simp [PAD] at this
  show 1 ≤ (posOf (idx2char nfc words) 0 [ch]).getD unk_idx
  rw [idx2char]
  rw [posOf, if_neg hpad]
  exact posOf_getD_pos _ 1 [ch] unk_idx (le_refl 1) (le_refl 1)

/-- C4: for every word and every vocabulary the builder produces, the
encoded id sequence has length exactly `MAX_WORD_LEN`, and the PAD id 0
sits at exactly the positions at or above the word's true length
(`true_char_len`): below it every id is a real character id or UNK, hence
nonzero. -/
theorem claim4_fixed_width_encoding :
    ∀ (nfc : Str → Str) (words : List Str) (word : Str),
      (encode_word nfc words word).length = MAX_WORD_LEN ∧
      ∀ i, i < MAX_WORD_LEN →
        ((encode_word nfc words word).getD i 0 = pad_idx ↔ true_char_len nfc word ≤ i) := by
  intro nfc words word
  have hids_len :
      (((normalize_text nfc word).take MAX_WORD_LEN).map
        (fun ch => (build_char_vocab nfc words [ch]).getD unk_idx)).length =
        true_char_len nfc word := by
    rw [List.length_map, List.length_take, true_char_len]
    exact Nat.min_comm _ _
  have htl_le : true_char_len nfc word ≤ MAX_WORD_LEN := by
    rw [true_char_len]
    exact Nat.min_le_right _ _
  constructor
  · simp only [encode_word, List.length_append, List.length_replicate, hids_len]
    omega
  · intro i hi
    by_cases hlt : i < true_char_len nfc word
    · have hi_ids : i < (((normalize_text nfc word).take MAX_WORD_LEN).map
          (fun ch => (build_char_vocab nfc words [ch]).getD unk_idx)).length := by
        rw [hids_len]; exact hlt
      have hget : (encode_word nfc words word).getD i 0 =
          (((normalize_text nfc word).take MAX_WORD_LEN).map
            (fun ch => (build_char_vocab nfc words [ch]).getD unk_idx)).getD i 0 := by
        simp only [encode_word, List.getD_eq_getElem?_getD]
        rw [List.getElem?_append_left hi_ids]
      rw [hget]
      have hpos : 1 ≤ (((normalize_text nfc word).take MAX_WORD_LEN).map
          (fun ch => (build_char_vocab nfc words [ch]).getD unk_idx)).getD i 0 := by
        rw [List.getD_eq_getElem?_getD, List.getElem?_eq_getElem hi_ids, Option.getD_some]
        have hx := List.getElem_mem (l := ((normalize_text nfc word).take MAX_WORD_LEN).map
          (fun ch => (build_char_vocab nfc words [ch]).getD unk_idx)) (h := hi_ids)
        obtain ⟨ch, _, he⟩ := List.mem_map.mp hx
        rw [← he]
        exact char_lookup_pos nfc words ch
      simp only [pad_idx]
      omega
    · have hge : true_char_len nfc word ≤ i := not_lt.mp hlt
      have hget : (encode_word nfc words word).getD i 0 = 0 := by
        simp only [encode_word, List.getD_eq_getElem?_getD]
        rw [List.getElem?_append_right (by rw [hids_len]; exact hge)]
        rw [hids_len]
        rw [List.getElem?_replicate]
        rw [if_pos (by omega)]
        simp [pad_idx]
      rw [hget]
      exact iff_of_true rfl hge

/-- Witness for C4 at the word `"ab"` over the vocabulary built from it:
length is 24 and position 0 (below the true length 2) is not PAD. -/
theorem claim4_witness :
    (encode_word (fun s => s) [['a', 'b']] ['a', 'b']).length = MAX_WORD_LEN ∧
    ((encode_word (fun s => s) [['a', 'b']] ['a', 'b']).getD 0 0 = pad_idx ↔
      true_char_len (fun s => s) ['a', 'b'] ≤ 0) := by
  have h := claim4_fixed_width_encoding (fun s => s) [['a', 'b']] ['a', 'b']
  exact ⟨h.1, h.2 0 (by decide)⟩

theorem posOf_cons (a : Str) (as : List Str) (i : Nat) (s : Str) :
    posOf (a :: as) i s = if s = a then some i else posOf as (i + 1) s := rfl

theorem build_chars_nodup :
    ∀ (nfc : Str → Str) (words : List Str), (build_chars nfc words).Nodup := by
  intro nfc words
  rw [build_chars]
  exact ((List.perm_insertionSort _ _).nodup_iff).mpr (List.nodup_dedup _)

theorem build_chars_sorted :
    ∀ (nfc : Str → Str) (words : List Str),
      List.Sorted (fun a b : Char => a < b) (build_chars nfc words) := by
  intro nfc words
  have hle : List.Sorted (fun a b : Char => a ≤ b) (build_chars nfc words) :=
    List.sorted_insertionSort _ _
  exact List.Sorted.lt_of_le hle (build_chars_nodup nfc words)

theorem posOf_map_singleton :
    ∀ (v : List Char), v.Nodup → ∀ (i k : Nat) (hk : k < v.length),
      posOf (v.map (fun c => [c])) i [v.get ⟨k, hk⟩] = some (i + k) := by
  intro v
  induction v with
  | nil => intro _ i k hk; simp at hk
  | cons a as ih =>
    intro hnd i k hk
    cases k with
    | zero => simp [posOf]
    | succ k' =>
      have ha : a ∉ as := (List.nodup_cons.mp hnd).1
      have hk' : k' < as.length := by simpa using hk
      have hget : (a :: as).get ⟨k' + 1, hk⟩ = as.get ⟨k', hk'⟩ := rfl
      have hne : ([(a :: as).get ⟨k' + 1, hk⟩] : Str) ≠ [a] := by
        rw [hget]
        intro h
        have heq : as.get ⟨k', hk'⟩ = a := by simpa using h
        exact ha (heq ▸ List.get_mem as k' hk')
      rw [List.map_cons, posOf_cons, if_neg hne, hget]
      rw [ih (List.nodup_cons.mp hnd).2 (i + 1) k' hk']
      congr 1
      omega

/-- C5: the vocabulary builder assigns id 0 to PAD and id 1 to UNK; the
remaining keys are exactly the distinct non-blank characters of the
normalized reference words, in strictly sorted order, the k-th receiving
id k+2; and the construction is deterministic — it depends only on which
characters occur, so any two builds with the same character membership
produce identical assignments. -/
theorem claim5_vocab_assignment :
    ∀ (nfc : Str → Str) (words : List Str),
      build_char_vocab nfc words PAD = some 0 ∧
      build_char_vocab nfc words UNK = some 1 ∧
      List.Sorted (fun a b : Char => a < b) (build_chars nfc words) ∧
      (∀ c : Char, c ∈ build_chars nfc words ↔
        (c.isWhitespace = false ∧ ∃ w ∈ words, c ∈ normalize_text nfc w)) ∧
      (∀ (k : Nat) (hk : k < (build_chars nfc words).length),
        build_char_vocab nfc words [(build_chars nfc words).get ⟨k, hk⟩] = some (k + 2)) ∧
      (∀ words' : List Str,
        (∀ c : Char, c ∈ build_chars nfc words' ↔ c ∈ build_chars nfc words) →
        build_chars nfc words' = build_chars nfc words) := by
  intro nfc words
  refine ⟨?_, ?_, build_chars_sorted nfc words, ?_, ?_, ?_⟩
  · show posOf (idx2char nfc words) 0 PAD = some 0
    rw [idx2char, posOf_cons, if_pos rfl]
  · show posOf (idx2char nfc words) 0 UNK = some 1
    rw [idx2char, posOf_cons, if_neg (by decide), posOf_cons, if_pos rfl]
  · intro c
    rw [build_chars]
    simp only [List.mem_insertionSort, List.mem_dedup, List.mem_flatten, List.mem_map]
    constructor
    · rintro ⟨l, ⟨w, hw, rfl⟩, hc⟩
      rw [List.mem_filter] at hc
      refine ⟨by simpa using hc.2, w, hw, hc.1⟩
    · rintro ⟨hws, w, hw, hc⟩
      exact ⟨_, ⟨w, hw, rfl⟩, List.mem_filter.mpr ⟨hc, by simpa using hws⟩⟩
  · intro k hk
    have h1 : ([(build_chars nfc words).get ⟨k, hk⟩] : Str) ≠ PAD := by
      intro h
      have := congrArg List.length h
      simp [PAD] at this
    have h2 : ([(build_chars nfc words).get ⟨k, hk⟩] : Str) ≠ UNK := by
      intro h
      have := congrArg List.length h
      simp [UNK] at this
    show posOf (idx2char nfc words) 0 _ = some (k + 2)
    rw [idx2char, posOf_cons, if_neg h1, posOf_cons, if_neg h2]
    rw [posOf_map_singleton _ (build_chars_nodup nfc words) 2 k hk]
    congr 1
    omega
  · intro words' hmem
    haveI : IsAntisymm Char (fun a b : Char => a < b) :=
      ⟨fun a b h1 h2 => absurd h2 (lt_asymm h1)⟩
    refine List.eq_of_perm_of_sorted ?_ (build_chars_sorted nfc words')
      (build_chars_sorted nfc words)
    exact (List.perm_ext_iff_of_nodup (build_chars_nodup nfc words')
      (build_chars_nodup nfc words)).mpr hmem

/-- Witness for C5 over the single reference word `"ba"`: PAD gets id 0,
UNK id 1 and the alphabetically first character `'a'` id 2. -/
theorem claim5_witness :
    build_char_vocab (fun s => s) [['b', 'a']] PAD = some 0 ∧
    build_char_vocab (fun s => s) [['b', 'a']] UNK = some 1 ∧
    build_char_vocab (fun s => s) [['b', 'a']] ['a'] = some 2 := by
  have h := claim5_vocab_assignment (fun s => s) [['b', 'a']]
  exact ⟨h.1, h.2.1, h.2.2.2.2.1 0 (by decide)⟩

theorem chainAppendLeft {α : Type} {R : α → α → Prop} :
    ∀ (l t : List α), List.Chain' R (l ++ t) → List.Chain' R l := by
  intro l t h
  rw [List.chain'_append] at h
  exact h.1

theorem rows_lb_of_chain :
    ∀ (rs : List Row) (r : Row),
      (∀ x ∈ r :: rs, x.start < x.stop) →
      List.Chain' (fun a b : Row => a.stop ≤ b.start) (r :: rs) →
      ∀ r' ∈ rs, r.stop ≤ r'.start := by
  intro rs
  induction rs with
  | nil =>
    intro r _ _ r' h
    cases h
  | cons r1 rs' ih =>
    intro r hstrict hchain r' hr'
    have hc := List.chain'_cons.mp hchain
    rcases List.mem_cons.mp hr' with rfl | hr''
    · exact hc.1
    · have h1 := ih r1 (fun x hx => hstrict x (List.mem_cons_of_mem _ hx)) hc.2 r' hr''
      have h2 : r.stop ≤ r1.start := hc.1
      have h3 : r1.start < r1.stop := hstrict r1 (by simp)
      omega

theorem decodeLoop_start_lb :
    ∀ (rows : List Row) (cur : Option Cur) (n : Nat),
      (∀ r ∈ rows, n ≤ r.start) →
      (∀ c, cur = some c → n ≤ c.start) →
      ∀ e ∈ decodeLoop cur rows, n ≤ e.start := by
  intro rows
  induction rows with
  | nil =>
    intro cur n _ hcur e he
    cases cur with
    | none => simp [decodeLoop, flushList] at he
    | some c =>
      simp only [decodeLoop, flushList, List.mem_singleton] at he
      rw [he]
      exact hcur c rfl
  | cons r rs ih =>
    intro cur n hrows hcur e he
    have hrs : ∀ r' ∈ rs, n ≤ r'.start := fun r' h => hrows r' (List.mem_cons_of_mem _ h)
    by_cases hO : r.label = ['O']
    · rw [show decodeLoop cur (r :: rs) = flushList cur ++ decodeLoop none rs from by
        simp [decodeLoop, hO]] at he
      rcases List.mem_append.mp he with h1 | h2
      · cases cur with
        | none => simp [flushList] at h1
        | some c =>
          simp only [flushList, List.mem_singleton] at h1
          rw [h1]
          exact hcur c rfl
      · exact ih none n hrs (fun c hc => by cases hc) e h2
    · cases cur with
      | none =>
        rw [show decodeLoop none (r :: rs) =
            decodeLoop (some (newCur r (labelParts r.label).2)) rs from by
          simp [decodeLoop, hO]] at he
        refine ih _ n hrs ?_ e he
        intro c hc
        injection hc with hc2
        rw [← hc2]
        exact hrows r (List.mem_cons_self r rs)
      | some c =>
        by_cases hcond : (labelParts r.label).1 = ['B'] ∨ c.label ≠ (labelParts r.label).2
        · rw [show decodeLoop (some c) (r :: rs) =
              mkEnt c :: decodeLoop (some (newCur r (labelParts r.label).2)) rs from by
            simp [decodeLoop, hO, hcond, flushList]] at he
          rcases List.mem_cons.mp he with rfl | h2
          · exact hcur c rfl
          · refine ih _ n hrs ?_ _ h2
            intro c' hc'
            injection hc' with hc2
            rw [← hc2]
            exact hrows r (List.mem_cons_self r rs)
        · rw [show decodeLoop (some c) (r :: rs) =
              decodeLoop (some (extendCur c r)) rs from by
            simp [decodeLoop, hO, hcond]] at he
          refine ih _ n hrs ?_ e he
          intro c' hc'
          injection hc' with hc2
          rw [← hc2]
          exact hcur c rfl

theorem decodeLoop_sorted :
    ∀ (rows : List Row) (cur : Option Cur),
      (∀ r ∈ rows, r.start < r.stop) →
      List.Chain' (fun a b : Row => a.stop ≤ b.start) rows →
      (∀ c, cur = some c → c.start < c.stop ∧ ∀ r ∈ rows, c.stop ≤ r.start) →
      (∀ e ∈ decodeLoop cur rows, e.start < e.stop) ∧
      List.Chain' (fun a b : EntityOut => a.stop ≤ b.start) (decodeLoop cur rows) := by
  intro rows
  induction rows with
  | nil =>
    intro cur _ _ hcur
    cases cur with
    | none =>
      exact ⟨fun e he => by simp [decodeLoop, flushList] at he,
        by simp [decodeLoop, flushList]⟩
    | some c =>
      refine ⟨?_, by simp [decodeLoop, flushList]⟩
      intro e he
      simp only [decodeLoop, flushList, List.mem_singleton] at he
      rw [he]
      exact (hcur c rfl).1
  | cons r rs ih =>
    intro cur hstrict hchain hcur
    have hstrict_r : r.start < r.stop := hstrict r (List.mem_cons_self r rs)
    have hstrict_rs : ∀ x ∈ rs, x.start < x.stop :=
      fun x hx => hstrict x (List.mem_cons_of_mem _ hx)
    have hchain_rs : List.Chain' (fun a b : Row => a.stop ≤ b.start) rs := hchain.tail
    have hlb : ∀ r' ∈ rs, r.stop ≤ r'.start := rows_lb_of_chain rs r hstrict hchain
    cases cur with
    | none =>
      by_cases hO : r.label = ['O']
      · rw [show decodeLoop none (r :: rs) = decodeLoop none rs from by
          simp [decodeLoop, hO, flushList]]
        exact ih none hstrict_rs hchain_rs (fun c hc => by cases hc)
      · rw [show decodeLoop none (r :: rs) =
            decodeLoop (some (newCur r (labelParts r.label).2)) rs from by
          simp [decodeLoop, hO]]
        refine ih _ hstrict_rs hchain_rs ?_
        intro c hc
        injection hc with hc2
        rw [← hc2]
        exact ⟨hstrict_r, fun r' h => hlb r' h⟩
    | some c =>
      have hcurc := hcur c rfl
      by_cases hO : r.label = ['O']
      · rw [show decodeLoop (some c) (r :: rs) = mkEnt c :: decodeLoop none rs from by
          simp [decodeLoop, hO, flushList]]
        have htail := ih none hstrict_rs hchain_rs (fun c' hc' => by cases hc')
        refine ⟨?_, ?_⟩
        · intro e he
          rcases List.mem_cons.mp he with rfl | h2
          · exact hcurc.1
          · exact htail.1 e h2
        · rw [List.chain'_cons']
          refine ⟨?_, htail.2⟩
          intro y hy
          exact decodeLoop_start_lb rs none c.stop
            (fun r' h => hcurc.2 r' (List.mem_cons_of_mem _ h))
            (fun c' hc' => by cases hc') y (List.mem_of_mem_head? hy)
      · by_cases hcond : (labelParts r.label).1 = ['B'] ∨ c.label ≠ (labelParts r.label).2
        · rw [show decodeLoop (some c) (r :: rs) =
              mkEnt c :: decodeLoop (some (newCur r (labelParts r.label).2)) rs from by
            simp [decodeLoop, hO, hcond, flushList]]
          have hnewcur : ∀ c', some (newCur r (labelParts r.label).2) = some c' →
              c'.start < c'.stop ∧ ∀ r' ∈ rs, c'.stop ≤ r'.start := by
            intro c' hc'
            injection hc' with hc2
            rw [← hc2]
            exact ⟨hstrict_r, fun r' h => hlb r' h⟩
          have htail := ih _ hstrict_rs hchain_rs hnewcur
          refine ⟨?_, ?_⟩
          · intro e he
            rcases List.mem_cons.mp he with rfl | h2
            · exact hcurc.1
            · exact htail.1 e h2
          · rw [List.chain'_cons']
            refine ⟨?_, htail.2⟩
            intro y hy
            refine decodeLoop_start_lb rs _ c.stop
              (fun r' h => hcurc.2 r' (List.mem_cons_of_mem _ h)) ?_
              y (List.mem_of_mem_head? hy)
            intro c' hc'
            injection hc' with hc2
            rw [← hc2]
            exact hcurc.2 r (List.mem_cons_self r rs)
        · rw [show decodeLoop (some c) (r :: rs) =
              decodeLoop (some (extendCur c r)) rs from by
            simp [decodeLoop, hO, hcond]]
          refine ih _ hstrict_rs hchain_rs ?_
          intro c' hc'
          injection hc' with hc2
          rw [← hc2]
          constructor
          · show c.start < r.stop
            have h1 := hcurc.1
            have h2 := hcurc.2 r (List.mem_cons_self r rs)
            omega
          · intro r' h
            show r.stop ≤ r'.start
            exact hlb r' h

theorem zip4_spans_decomp :
    ∀ (ts : List Str) (ss : List (Nat × Nat)) (ls : List Str) (qs : List ℚ),
      ∃ rest, ss = (zip4 ts ss ls qs).map (fun r => (r.start, r.stop)) ++ rest := by
  intro ts
  induction ts with
  | nil => intro ss ls qs; exact ⟨ss, rfl⟩
  | cons t ts ih =>
    intro ss ls qs
    cases ss with
    | nil => exact ⟨[], rfl⟩
    | cons s ss' =>
      cases ls with
      | nil => exact ⟨s :: ss', rfl⟩
      | cons l ls' =>
        cases qs with
        | nil => exact ⟨s :: ss', rfl⟩
        | cons q qs' =>
          obtain ⟨rest, hrest⟩ := ih ss' ls' qs'
          refine ⟨rest, ?_⟩
          conv_lhs => rw [hrest]
          rfl

theorem entChain_strengthen :
    ∀ (l : List EntityOut),
      (∀ e ∈ l, e.start < e.stop) →
      List.Chain' (fun a b : EntityOut => a.stop ≤ b.start) l →
      List.Chain' (fun a b : EntityOut => a.stop ≤ b.start ∧ a.start < b.start) l := by
  intro l
  induction l with
  | nil => intro _ _; exact List.chain'_nil
  | cons a l' ih =>
    intro hstrict hch
    rw [List.chain'_cons'] at hch ⊢
    refine ⟨?_, ih (fun e he => hstrict e (List.mem_cons_of_mem _ he)) hch.2⟩
    intro y hy
    have h1 := hch.1 y hy
    have h2 : a.start < a.stop := hstrict a (List.mem_cons_self _ _)
    exact ⟨h1, lt_of_lt_of_le h2 h1⟩

/-- C7: whenever the token spans fed to `decode_entities` are well-formed
(each nonempty: start < end) and laid out left to right without overlap
(each span ends no later than the next begins) — as the whitespace
tokenizer produces them — the emitted entities have start ≤ end, are
pairwise non-overlapping and strictly increasing in start offset, for
every label and score assignment. -/
theorem claim7_span_ordering :
    ∀ (tokens : List Str) (spans : List (Nat × Nat)) (labels : List Str) (scores : List ℚ),
      (∀ s ∈ spans, s.1 < s.2) →
      List.Chain' (fun a b : Nat × Nat => a.2 ≤ b.1) spans →
      (∀ e ∈ decode_entities tokens spans labels scores, e.start ≤ e.stop) ∧
      List.Pairwise (fun a b : EntityOut => a.stop ≤ b.start ∧ a.start < b.start)
        (decode_entities tokens spans labels scores) := by
  intro tokens spans labels scores hs hchain
  obtain ⟨rest, hrest⟩ := zip4_spans_decomp tokens spans labels scores
  have hstrict : ∀ r ∈ zip4 tokens spans labels scores, r.start < r.stop := by
    intro r hr
    have hmem : (r.start, r.stop) ∈ spans := by
      rw [hrest]
      exact List.mem_append_left _ (List.mem_map_of_mem _ hr)
    simpa using hs _ hmem
  have hchain_rows :
      List.Chain' (fun a b : Row => a.stop ≤ b.start) (zip4 tokens spans labels scores) := by
    have h1 : List.Chain' (fun a b : Nat × Nat => a.2 ≤ b.1)
        ((zip4 tokens spans labels scores).map (fun r => (r.start, r.stop))) := by
      apply chainAppendLeft _ rest
      rw [← hrest]
      exact hchain
    rw [List.chain'_map] at h1
    exact h1
  have hmain := decodeLoop_sorted (zip4 tokens spans labels scores) none hstrict hchain_rows
    (fun c hc => by cases hc)
  refine ⟨fun e he => le_of_lt (hmain.1 e he), ?_⟩
  haveI : IsTrans EntityOut (fun a b : EntityOut => a.stop ≤ b.start ∧ a.start < b.start) :=
    ⟨fun a b c h1 h2 => ⟨le_trans h1.1 (le_of_lt h2.2), lt_trans h1.2 h2.2⟩⟩
  rw [show decode_entities tokens spans labels scores =
    decodeLoop none (zip4 tokens spans labels scores) from rfl]
  rw [← List.chain'_iff_pairwise]
  exact entChain_strengthen _ hmain.1 hmain.2

/-- Witness for C7: two well-formed, ordered token spans with two distinct
entity types produce a pairwise-ordered entity list. -/
theorem claim7_witness :
    List.Pairwise (fun a b : EntityOut => a.stop ≤ b.start ∧ a.start < b.start)
      (decode_entities ["a".toList, "b".toList] [(0, 1), (2, 3)]
        ["B-T".toList, "B-U".toList] [1, 1]) :=
  (claim7_span_ordering ["a".toList, "b".toList] [(0, 1), (2, 3)]
    ["B-T".toList, "B-U".toList] [1, 1] (by decide)
    (by norm_num [List.chain'_cons])).2
